import Mathlib

/-!
Verification of the Python source-code structural analyzer
(`src/utils/code_analyzer.py`, class `PythonCodeAnalyzer`).

The development shallowly embeds the analyzer: Python statements and
expressions relevant to the analyzer's traversals become an inductive
syntax tree, `ast.walk` becomes a breadth-first traversal, and each
public operation (`extract_functions`, `extract_functions_with_dependencies`,
`get_file_outline`, `chunk_by_function` with `_split_large_function`,
`_build_call_graph`, `_extract_imports`) becomes an executable Lean
function translated line by line from the source.  Python `set` values
are `Finset String`, Python dicts are association lists read with
last-binding-wins lookup, strings are Lean `String`, and Python integer
floor division `// 4` is `Nat` division.
-/

/-- Mirror of Python `code.split("\n")`: split a character list at every
newline, keeping empty pieces; `acc` holds the current piece reversed.
The result always has at least one element. -/
def splitLinesAux : List Char → List Char → List String
  | [], acc => [String.mk acc.reverse]
  | c :: rest, acc =>
      if c = '\n' then String.mk acc.reverse :: splitLinesAux rest []
      else splitLinesAux rest (c :: acc)

/-- Mirror of Python `s.split("\n")`. -/
def splitLines (s : String) : List String := splitLinesAux s.data []

/-- Mirror of Python `"\n".join(lines)`. -/
def joinNl : List String → String
  | [] => ""
  | [a] => a
  | a :: b :: rest => a ++ "\n" ++ joinNl (b :: rest)

/-- Boolean test that `p` is a leading piece of `l`. -/
def charsPrefix : List Char → List Char → Bool
  | [], _ => true
  | _ :: _, [] => false
  | a :: as, b :: bs => a == b && charsPrefix as bs

/-- Boolean test that `p` occurs contiguously inside `l`. -/
def charsInfix (p : List Char) : List Char → Bool
  | [] => charsPrefix p []
  | c :: rest => charsPrefix p (c :: rest) || charsInfix p rest

/-- Mirror of Python `pat in line` for strings (substring containment). -/
def strContainsSub (line pat : String) : Bool := charsInfix pat.data line.data

/-- The three-single-quote delimiter, built from character code 39. -/
def tripleSingleQuote : String := String.mk [Char.ofNat 39, Char.ofNat 39, Char.ofNat 39]

/-- Mirror of the source's docstring-delimiter test
`'"""' in line or "'''" in line`. -/
def hasTripleQuote (line : String) : Bool :=
  strContainsSub line "\"\"\"" || strContainsSub line tripleSingleQuote

/-- Python expressions, restricted to the node kinds the analyzer's
traversals distinguish: bare names, attribute access, calls, binary
operations, string constants and a catch-all opaque constant. -/
inductive PyExpr where
  | name (id : String)
  | attr (value : PyExpr) (attrName : String)
  | call (func : PyExpr) (args : List PyExpr)
  | binOp (l r : PyExpr)
  | strE (s : String)
  | constE

/-- Python statements, restricted to the node kinds the analyzer's
traversals distinguish.  `functionDef` embeds `ast.FunctionDef` and
`asyncFunctionDef` embeds `ast.AsyncFunctionDef`; in CPython's `ast`
module these are distinct classes, and `isinstance(node, ast.FunctionDef)`
is false for an async definition, which the embedding reflects by
making them separate constructors. -/
inductive PyStmt where
  | functionDef (name : String) (args : List String) (body : List PyStmt)
      (lineno endLineno : Nat)
  | asyncFunctionDef (name : String) (args : List String) (body : List PyStmt)
      (lineno endLineno : Nat)
  | importStmt (names : List String)
  | importFrom (module : Option String) (names : List String)
  | exprStmt (e : PyExpr)
  | ret (e : Option PyExpr)
  | passStmt

/-- Statement children visited by `ast.walk` that can contain further
statements: only function bodies in this fragment. -/
def stmtChildren : PyStmt → List PyStmt
  | .functionDef _ _ body _ _ => body
  | .asyncFunctionDef _ _ body _ _ => body
  | _ => []

mutual
/-- Structural weight of a statement, used as traversal fuel. -/
def stmtWeight : PyStmt → Nat
  | .functionDef _ _ body _ _ => 1 + stmtsWeight body
  | .asyncFunctionDef _ _ body _ _ => 1 + stmtsWeight body
  | _ => 1
/-- Structural weight of a statement list. -/
def stmtsWeight : List PyStmt → Nat
  | [] => 0
  | s :: r => stmtWeight s + stmtsWeight r
end

/-- Breadth-first statement traversal with explicit fuel: emit the
current level, then recurse on the concatenation of all children.
With fuel at least `stmtsWeight l` the fuel never runs out. -/
def walkFuel : Nat → List PyStmt → List PyStmt
  | 0, _ => []
  | _ + 1, [] => []
  | fuel + 1, s :: rest => (s :: rest) ++ walkFuel fuel ((s :: rest).flatMap stmtChildren)

/-- Mirror of `ast.walk(self.tree)` restricted to statement nodes:
level-order (breadth-first) enumeration of every statement in the
module, matching the `collections.deque` loop in `ast.walk`. -/
def walkStmts (l : List PyStmt) : List PyStmt := walkFuel (stmtsWeight l) l

/-- A plain (non-async) function-definition node found by a traversal. -/
structure DefNode where
  name : String
  args : List String
  body : List PyStmt
  lineno : Nat
  endLineno : Nat

/-- All nodes of the walk satisfying `isinstance(node, ast.FunctionDef)`,
in walk order.  Async definitions are not matched. -/
def plainDefs (m : List PyStmt) : List DefNode :=
  (walkStmts m).filterMap fun s =>
    match s with
    | .functionDef n a b l e => some ⟨n, a, b, l, e⟩
    | _ => none

mutual
/-- Call names found in an expression subtree: for every `ast.Call`
node, the bare identifier when `func` is an `ast.Name`, the member name
when `func` is an `ast.Attribute`, nothing otherwise — the body of the
`ast.walk(node)` loop in `_build_call_graph`. -/
def exprCallNames : PyExpr → List String
  | .name _ => []
  | .strE _ => []
  | .constE => []
  | .binOp l r => exprCallNames l ++ exprCallNames r
  | .attr v _ => exprCallNames v
  | .call f args =>
      (match f with
       | .name id => [id]
       | .attr _ a => [a]
       | _ => []) ++ exprCallNames f ++ exprsCallNames args
/-- Call names of a list of expressions. -/
def exprsCallNames : List PyExpr → List String
  | [] => []
  | e :: es => exprCallNames e ++ exprsCallNames es
end

mutual
/-- Call names in a statement subtree, including the bodies of nested
(also async) definitions, because `ast.walk(node)` descends through
them. -/
def stmtCallNames : PyStmt → List String
  | .functionDef _ _ body _ _ => stmtsCallNames body
  | .asyncFunctionDef _ _ body _ _ => stmtsCallNames body
  | .exprStmt e => exprCallNames e
  | .ret (some e) => exprCallNames e
  | .ret none => []
  | .importStmt _ => []
  | .importFrom _ _ => []
  | .passStmt => []
/-- Call names in a statement list. -/
def stmtsCallNames : List PyStmt → List String
  | [] => []
  | s :: r => stmtCallNames s ++ stmtsCallNames r
end

/-- The `called_functions` set collected for one function body. -/
def callsOfBody (body : List PyStmt) : Finset String := (stmtsCallNames body).toFinset

/-- Mirror of `PythonCodeAnalyzer._build_call_graph`: one entry per
plain function definition in walk order, mapping its name to the set of
call names in its subtree.  Repeated names model repeated dict
assignment and are resolved by `dictLookup` below (last wins). -/
def build_call_graph (m : List PyStmt) : List (String × Finset String) :=
  (plainDefs m).map fun d => (d.name, callsOfBody d.body)

/-- Python-dict lookup over an assignment list: the latest binding of
the key wins. -/
def dictLookup {α : Type} (l : List (String × α)) (k : String) : Option α :=
  (l.reverse.find? fun p => p.1 == k).map fun p => p.2

/-- Mirror of `call_graph.get(func, set())`. -/
def cgGet (g : List (String × Finset String)) (f : String) : Finset String :=
  (dictLookup g f).getD ∅

/-- The dependency loop of `extract_functions_with_dependencies`:
`depth` rounds, each replacing the current level by the union of its
call-graph neighbours and accumulating everything seen into the first
component (`to_extract`). -/
def expandLoop (g : String → Finset String) : Nat → Finset String → Finset String → Finset String
  | 0, toExtract, _ => toExtract
  | d + 1, toExtract, current =>
      expandLoop g d (toExtract ∪ current.biUnion g) (current.biUnion g)

/-- The set `to_extract` computed by
`extract_functions_with_dependencies(root_functions, depth)` before the
final extraction call: seeds expanded through the call graph for
exactly `depth` rounds. -/
def expandDependencies (g : String → Finset String) (seeds : Finset String)
    (depth : Nat) : Finset String :=
  expandLoop g depth seeds seeds

/-- Mirror of the `FunctionInfo` record of the source. -/
structure FunctionInfo where
  name : String
  code : String
  start_line : Nat
  end_line : Nat
  args : List String
  docstring : Option String
deriving DecidableEq

/-- Mirror of the chunk `metadata` dictionary.  `partFlag` models the
`is_partial` key; `part` and `total_parts` are `none` exactly when the
corresponding key is absent from the dictionary. -/
structure ChunkMeta where
  type : String
  name : String
  start_line : Nat
  end_line : Nat
  args : List String
  docstring : String
  partFlag : Bool
  part : Option Nat
  total_parts : Option Nat
deriving DecidableEq

/-- Mirror of a chunk dictionary produced by `chunk_by_function`. -/
structure Chunk where
  id : String
  text : String
  metadata : ChunkMeta
deriving DecidableEq

/-- Python truthiness of the optional docstring in
`if function_info.docstring:` — false for `None` and for the empty
string. -/
def docTruthy : Option String → Bool
  | none => false
  | some s => !s.isEmpty

/-- The docstring scan of `_split_large_function`: iterate `lines[1:]`
with 1-based index `i`; a line containing a triple quote opens the
docstring (and is collected) or closes it (collected, stop, and
`code_start_idx` becomes `i + 1`); lines inside the docstring are
collected; if the scan ends without a closing line `code_start_idx`
stays at its initial value 1. -/
def scanDocstringAux : List String → Nat → Bool → List String → List String × Nat
  | [], _, _, acc => (acc.reverse, 1)
  | line :: rest, i, inDoc, acc =>
      if hasTripleQuote line then
        if inDoc then ((line :: acc).reverse, i + 1)
        else scanDocstringAux rest (i + 1) true (line :: acc)
      else if inDoc then scanDocstringAux rest (i + 1) true (line :: acc)
      else scanDocstringAux rest (i + 1) false acc

/-- Docstring lines and `code_start_idx` for a function's line list. -/
def scanDocstring (lines : List String) : List String × Nat :=
  scanDocstringAux (lines.drop 1) 1 false []

/-- The synthetic continuation-marker comment inserted at the top of
every chunk after the first. -/
def contMarker (n : Nat) : String :=
  "    # ... (continuation from line " ++ toString n ++ ")"

/-- An intermediate chunk flushed inside the splitting loop:
`is_partial` true, `part` present, no `total_parts`. -/
def partChunk (fi : FunctionInfo) (k : Nat) (curLines : List String) (curStart : Nat) : Chunk :=
  ⟨"func_" ++ fi.name ++ "_part" ++ toString k,
   joinNl curLines,
   ⟨"function", fi.name, curStart, curStart + curLines.length - 1, fi.args,
    fi.docstring.getD "", true, some k, none⟩⟩

/-- The final chunk flushed after the splitting loop: `is_partial`
true, `part` present, and `total_parts` equal to the part count. -/
def lastChunk (fi : FunctionInfo) (k : Nat) (curLines : List String) (curStart : Nat) : Chunk :=
  ⟨"func_" ++ fi.name ++ "_part" ++ toString k,
   joinNl curLines,
   ⟨"function", fi.name, curStart, fi.end_line, fi.args,
    fi.docstring.getD "", true, some k, some k⟩⟩

/-- The body-line loop of `_split_large_function`.  Arguments mirror the
Python locals: remaining lines, running index `i`, `current_chunk_lines`,
`current_chunk_start`, `chunk_count`.  When appending the next line
would push the estimate over `max_tokens` and the buffer holds more than
the signature, the buffer is flushed and a new one starts with the
signature, a continuation marker, and the triggering line; at the end a
buffer longer than one line is flushed as the final chunk. -/
def splitLoop (fi : FunctionInfo) (maxTokens : Nat) (signature : String) :
    List String → Nat → List String → Nat → Nat → List Chunk
  | [], _, cur, curStart, cnt =>
      if 1 < cur.length then [lastChunk fi (cnt + 1) cur curStart] else []
  | line :: rest, i, cur, curStart, cnt =>
      if maxTokens < (joinNl (cur ++ [line])).length / 4 ∧ 1 < cur.length then
        partChunk fi (cnt + 1) cur curStart ::
          splitLoop fi maxTokens signature rest (i + 1)
            [signature, contMarker (curStart + cur.length), line]
            (fi.start_line + i) (cnt + 1)
      else
        splitLoop fi maxTokens signature rest (i + 1) (cur ++ [line]) curStart cnt

/-- Mirror of `PythonCodeAnalyzer._split_large_function`. -/
def split_large_function (fi : FunctionInfo) (maxTokens : Nat) : List Chunk :=
  let lines := splitLines fi.code
  let signature := lines.headD ""
  let scanned := if docTruthy fi.docstring then scanDocstring lines else ([], 1)
  splitLoop fi maxTokens signature (lines.drop scanned.2) scanned.2
    (signature :: scanned.1) fi.start_line 0

/-- The single chunk emitted for a function whose estimate fits the
budget: `is_partial` false, no `part` or `total_parts` keys. -/
def wholeChunk (fi : FunctionInfo) : Chunk :=
  ⟨"func_" ++ fi.name, fi.code,
   ⟨"function", fi.name, fi.start_line, fi.end_line, fi.args,
    fi.docstring.getD "", false, none, none⟩⟩

/-- The chunks `chunk_by_function` emits for one function: estimate the
size as `len(code) // 4`; within budget gives one whole chunk, over
budget delegates to `_split_large_function`. -/
def chunkForFunction (fi : FunctionInfo) (maxTokens : Nat) : List Chunk :=
  if fi.code.length / 4 ≤ maxTokens then [wholeChunk fi]
  else split_large_function fi maxTokens

/-- The state of a successfully constructed `PythonCodeAnalyzer`:
source text, its line view, and the parsed tree. -/
structure PythonCodeAnalyzer where
  code : String
  lines : List String
  tree : List PyStmt

/-- Mirror of `PythonCodeAnalyzer.__init__`: the underlying parser is
abstracted as a parameter (CPython's `ast.parse` is outside the
repository); a parse failure is re-raised as the fatal invalid-source
error carrying the parser diagnostic, and no analyzer state exists in
that case. -/
def initAnalyzer (parseFn : String → Except String (List PyStmt)) (code : String) :
    Except String PythonCodeAnalyzer :=
  match parseFn code with
  | .error e => .error ("Invalid Python code: " ++ e)
  | .ok t => .ok ⟨code, splitLines code, t⟩

/-- Abstraction of the stdlib helper `ast.get_docstring(node)` used by
`_parse_function_node`: the docstring of a definition whose first body
statement is a string-literal expression (the stdlib's `inspect.cleandoc`
whitespace normalization is not modelled; no claim depends on it). -/
def get_docstring : List PyStmt → Option String
  | .exprStmt (.strE s) :: _ => some s
  | _ => none

/-- Mirror of `PythonCodeAnalyzer._parse_function_node`: verbatim line
slice `self.lines[start_line - 1 : end_line]` joined with newlines,
declared argument names, and the docstring. -/
def parse_function_node (a : PythonCodeAnalyzer) (d : DefNode) : FunctionInfo :=
  ⟨d.name,
   joinNl ((a.lines.drop (d.lineno - 1)).take (d.endLineno - (d.lineno - 1))),
   d.lineno, d.endLineno, d.args, get_docstring d.body⟩

/-- Mirror of `PythonCodeAnalyzer.extract_functions`: walk the tree and
keep every plain definition whose name is requested; repeated names
model repeated dict assignment, resolved by `dictLookup` (last wins). -/
def extract_functions (a : PythonCodeAnalyzer) (names : List String) :
    List (String × FunctionInfo) :=
  (plainDefs a.tree).filterMap fun d =>
    if d.name ∈ names then some (d.name, parse_function_node a d) else none

/-- The `FunctionInfo` records `chunk_by_function` builds, one per plain
definition in walk order. -/
def moduleFunctionInfos (a : PythonCodeAnalyzer) : List FunctionInfo :=
  (plainDefs a.tree).map (parse_function_node a)

/-- Mirror of `PythonCodeAnalyzer.chunk_by_function`. -/
def chunk_by_function (a : PythonCodeAnalyzer) (maxTokens : Nat) : List Chunk :=
  (moduleFunctionInfos a).flatMap fun fi => chunkForFunction fi maxTokens

/-- Mirror of `PythonCodeAnalyzer._extract_imports`: walk the tree; an
`ast.Import` contributes one rendered line per alias, an
`ast.ImportFrom` one line with the joined alias names and
`node.module or ""`. -/
def extract_imports (m : List PyStmt) : List String :=
  (walkStmts m).flatMap fun s =>
    match s with
    | .importStmt names => names.map fun n => "import " ++ n
    | .importFrom module names =>
        ["from " ++ module.getD "" ++ " import " ++ String.intercalate ", " names]
    | _ => []

/-- Number of import statements (not rendered entries) in the walk. -/
def countImportStmts (m : List PyStmt) : Nat :=
  ((walkStmts m).filter fun s =>
    match s with
    | .importStmt _ => true
    | .importFrom _ _ => true
    | _ => false).length

/-- The rendered signature line of `get_file_outline` for one plain
definition. -/
def signatureLine (d : DefNode) : String :=
  "def " ++ d.name ++ "(" ++ String.intercalate ", " d.args ++ "): ..."

/-- The function-signature lines of the outline, in walk order. -/
def funcSignatureLines (m : List PyStmt) : List String :=
  (plainDefs m).map signatureLine

/-- The `outline_parts` list built by `get_file_outline` before the
final join: an import section (header, first ten rendered imports, a
truncation note when more exist, a blank separator) present only when
any import exists, then the function-signature section. -/
def outlineLines (m : List PyStmt) : List String :=
  (if (extract_imports m).isEmpty then [] else
    "# Imports" :: (extract_imports m).take 10 ++
      (if 10 < (extract_imports m).length then
        ["# ... and " ++ toString ((extract_imports m).length - 10) ++ " more imports"]
       else []) ++
      [""]) ++
  ("# Functions" :: funcSignatureLines m)

/-- Mirror of `PythonCodeAnalyzer.get_file_outline`. -/
def get_file_outline (m : List PyStmt) : String := joinNl (outlineLines m)

/-- The tree of the spec's dependency scenario: `helper(x)` returning
`x * 2`, `process(y)` returning `helper(y) + 1`, `main(z)` returning
`process(z) - 1`, at the line numbers the test source gives them. -/
def demoTree : List PyStmt :=
  [.functionDef "helper" ["x"] [.ret (some (.binOp (.name "x") .constE))] 2 3,
   .functionDef "process" ["y"]
     [.ret (some (.binOp (.call (.name "helper") [.name "y"]) .constE))] 5 6,
   .functionDef "main" ["z"]
     [.ret (some (.binOp (.call (.name "process") [.name "z"]) .constE))] 8 9]

/-- Lookup function over the scenario's call graph. -/
def demoGraph : String → Finset String := cgGet (build_call_graph demoTree)

/-- Source of a one-line function whose size estimate exceeds a budget
of 1: `len(code) // 4 = 6`. -/
def oneLineSrc : String := "def f(x): return 123456789"

/-- Analyzer state for `oneLineSrc` (its parse tree is a single
function definition spanning line 1). -/
def oneLineAnalyzer : PythonCodeAnalyzer :=
  ⟨oneLineSrc, splitLines oneLineSrc, [.functionDef "f" ["x"] [.ret (some .constE)] 1 1]⟩

/-- The `FunctionInfo` the analyzer builds for `oneLineSrc`. -/
def oneLineFi : FunctionInfo := ⟨"f", oneLineSrc, 1, 1, ["x"], none⟩

/-- Source of a small function that fits any budget of at least 4. -/
def tinySrc : String := "def tiny(): pass"

/-- Analyzer state for `tinySrc`. -/
def tinyAnalyzer : PythonCodeAnalyzer :=
  ⟨tinySrc, splitLines tinySrc, [.functionDef "tiny" [] [.passStmt] 1 1]⟩

/-- The `FunctionInfo` the analyzer builds for `tinySrc`. -/
def tinyFi : FunctionInfo := ⟨"tiny", tinySrc, 1, 1, [], none⟩

/-- Source of a four-line function whose estimate (8) exceeds a budget
of 5, so it is split into several parts. -/
def splitSrc : String := "def g():\n    a(1)\n    b(2)\n    c(3)"

/-- Analyzer state for `splitSrc`. -/
def splitAnalyzer : PythonCodeAnalyzer :=
  ⟨splitSrc, splitLines splitSrc,
   [.functionDef "g" []
     [.exprStmt (.call (.name "a") [.constE]),
      .exprStmt (.call (.name "b") [.constE]),
      .exprStmt (.call (.name "c") [.constE])] 1 4]⟩

/-- The `FunctionInfo` the analyzer builds for `splitSrc`. -/
def splitFi : FunctionInfo := ⟨"g", splitSrc, 1, 4, [], none⟩

/-- A module consisting of a single import statement carrying eleven
aliases: `import a1, a2, ..., a11`. -/
def manyAliasImport : List PyStmt :=
  [.importStmt ["a1", "a2", "a3", "a4", "a5", "a6", "a7", "a8", "a9", "a10", "a11"]]

/-- A module with an async definition `fetch` and a plain definition
`plain`. -/
def asyncTree : List PyStmt :=
  [.asyncFunctionDef "fetch" ["u"] [.ret (some (.call (.name "inner") [.name "u"]))] 1 2,
   .functionDef "plain" ["x"] [.passStmt] 4 5]

/-- Source text matching `asyncTree`. -/
def asyncSrc : String :=
  "async def fetch(u):\n    return inner(u)\n\ndef plain(x):\n    pass"

/-- Analyzer state for `asyncSrc`. -/
def asyncAnalyzer : PythonCodeAnalyzer := ⟨asyncSrc, splitLines asyncSrc, asyncTree⟩

/-- The statement node of the nested definition `inner(y)` calling
`h(y)`. -/
def innerStmt : PyStmt :=
  .functionDef "inner" ["y"] [.exprStmt (.call (.name "h") [.name "y"])] 2 3

/-- A module with `outer(x)` lexically containing `inner(y)` and then
calling it. -/
def nestedTree : List PyStmt :=
  [.functionDef "outer" ["x"]
    [innerStmt, .exprStmt (.call (.name "inner") [.name "x"])] 1 4]

/-- The `DefNode` of `outer` in `nestedTree`. -/
def outerNode : DefNode :=
  ⟨"outer", ["x"], [innerStmt, .exprStmt (.call (.name "inner") [.name "x"])], 1, 4⟩

/-- The `DefNode` of `inner` in `nestedTree`. -/
def innerNode : DefNode :=
  ⟨"inner", ["y"], [.exprStmt (.call (.name "h") [.name "y"])], 2, 3⟩

/-- The part bookkeeping of a split-chunk list produced with
`chunk_count = cnt` on entry: each chunk in order carries the next part
number and the matching id, every chunk but the last has no
`total_parts`, and the last carries `total_parts` equal to its own part
number. -/
def PartsFrom (fi : FunctionInfo) : Nat → List Chunk → Prop
  | _, [] => True
  | cnt, [c] =>
      c.metadata.part = some (cnt + 1) ∧
      c.id = "func_" ++ fi.name ++ "_part" ++ toString (cnt + 1) ∧
      c.metadata.total_parts = some (cnt + 1)
  | cnt, c :: c2 :: rest =>
      c.metadata.part = some (cnt + 1) ∧
      c.id = "func_" ++ fi.name ++ "_part" ++ toString (cnt + 1) ∧
      c.metadata.total_parts = none ∧
      PartsFrom fi (cnt + 1) (c2 :: rest)

/-- The accumulated `to_extract` set only grows as the loop runs. -/
theorem expandLoop_superset (g : String → Finset String) :
    ∀ (d : Nat) (t c : Finset String), t ⊆ expandLoop g d t c := by
  intro d
  induction d with
  | zero => intro t c; exact Finset.Subset.refl t
  | succ n ih =>
    intro t c
    exact Finset.Subset.trans Finset.subset_union_left (ih (t ∪ c.biUnion g) (c.biUnion g))

/-- Running the loop longer from the same state only adds elements. -/
theorem expandLoop_le_add (g : String → Finset String) :
    ∀ (d k : Nat) (t c : Finset String),
      expandLoop g d t c ⊆ expandLoop g (d + k) t c := by
  intro d
  induction d with
  | zero =>
    intro k t c
    simpa using expandLoop_superset g k t c
  | succ n ih =>
    intro k t c
    have harith : n + 1 + k = (n + k) + 1 := by omega
    rw [harith]
    show expandLoop g n (t ∪ c.biUnion g) (c.biUnion g) ⊆
      expandLoop g (n + k) (t ∪ c.biUnion g) (c.biUnion g)
    exact ih k (t ∪ c.biUnion g) (c.biUnion g)

/-- C6: for every call graph and every seed set, dependency expansion
with depth 0 returns the seed set unchanged — the loop body of
`extract_functions_with_dependencies` never runs, so `to_extract` is
exactly `set(root_functions)`. -/
theorem expand_depth_zero_eq_seeds (g : String → Finset String) (seeds : Finset String) :
    expandDependencies g seeds 0 = seeds := rfl

/-- C7: dependency expansion is monotonically non-decreasing in depth —
for all depths `d1 ≤ d2`, every name in the expansion at depth `d1` is
in the expansion at depth `d2`, because each extra round only adds to
the accumulated `to_extract` set. -/
theorem expand_monotone_in_depth (g : String → Finset String) (seeds : Finset String)
    (d1 d2 : Nat) (h : d1 ≤ d2) :
    expandDependencies g seeds d1 ⊆ expandDependencies g seeds d2 := by
  obtain ⟨k, rfl⟩ := Nat.exists_eq_add_of_le h
  exact expandLoop_le_add g d1 k seeds seeds

/-- Witness for C7 at a concrete call graph, seed set and depth pair. -/
theorem expand_monotone_in_depth_witness :
    (1 : Nat) ≤ 2 ∧
      expandDependencies demoGraph {"main"} 1 ⊆ expandDependencies demoGraph {"main"} 2 :=
  ⟨by decide, expand_monotone_in_depth demoGraph {"main"} 1 2 (by decide)⟩

/-- C5: on the helper/process/main scenario, expansion from the seed
set containing only `main` yields exactly the pair `main, process` at
depth 1 and exactly the triple `main, process, helper` at depth 2. -/
theorem expand_demo_depths :
    expandDependencies demoGraph {"main"} 1 = {"main", "process"} ∧
    expandDependencies demoGraph {"main"} 2 = {"main", "process", "helper"} := by
  decide

/-- Appending to a string concatenates the character lists. -/
theorem string_mk_append (xs ys : List Char) :
    String.mk xs ++ String.mk ys = String.mk (xs ++ ys) := rfl

/-- The empty string is a right identity for append. -/
theorem string_append_empty (s : String) : s ++ "" = s := by
  cases s with
  | mk d =>
    show String.mk d ++ String.mk [] = String.mk d
    rw [string_mk_append]
    simp

/-- String append is associative. -/
theorem string_append_assoc (a b c : String) : a ++ b ++ c = a ++ (b ++ c) := by
  cases a with | mk x => cases b with | mk y => cases c with | mk z =>
    simp only [string_mk_append, List.append_assoc]

/-- Unfolding `joinNl` on a list with at least two elements. -/
theorem joinNl_cons_cons (a b : String) (l : List String) :
    joinNl (a :: b :: l) = a ++ "\n" ++ joinNl (b :: l) := rfl

/-- A nonempty join starts with its first element. -/
theorem joinNl_cons_exists (a : String) (l : List String) :
    ∃ t, joinNl (a :: l) = a ++ t := by
  cases l with
  | nil => exact ⟨"", by simp [joinNl, string_append_empty]⟩
  | cons b r =>
    exact ⟨"\n" ++ joinNl (b :: r), by rw [joinNl_cons_cons, string_append_assoc]⟩

/-- Splitting never yields an empty list. -/
theorem splitLinesAux_ne_nil : ∀ (cs acc : List Char), splitLinesAux cs acc ≠ [] := by
  intro cs
  induction cs with
  | nil => intro acc; simp [splitLinesAux]
  | cons c rest ih =>
    intro acc
    simp only [splitLinesAux]
    split
    · simp
    · exact ih _

/-- Splitting never yields an empty list. -/
theorem splitLines_ne_nil (s : String) : splitLines s ≠ [] :=
  splitLinesAux_ne_nil s.data []

/-- Joining the pieces of a split recovers the accumulator followed by
the remaining characters. -/
theorem joinNl_splitLinesAux : ∀ (cs acc : List Char),
    joinNl (splitLinesAux cs acc) = String.mk (acc.reverse ++ cs) := by
  intro cs
  induction cs with
  | nil => intro acc; simp [splitLinesAux, joinNl]
  | cons c rest ih =>
    intro acc
    by_cases hc : c = '\n'
    · subst hc
      have hunf : splitLinesAux ('\n' :: rest) acc
          = String.mk acc.reverse :: splitLinesAux rest [] := by
        simp [splitLinesAux]
      rw [hunf]
      have hne := splitLinesAux_ne_nil rest []
      cases hsp : splitLinesAux rest [] with
      | nil => exact absurd hsp hne
      | cons b r =>
        rw [joinNl_cons_cons]
        have ih0 := ih []
        rw [hsp] at ih0
        simp only [List.reverse_nil, List.nil_append] at ih0
        rw [ih0]
        show String.mk acc.reverse ++ String.mk ['\n'] ++ String.mk rest = _
        rw [string_mk_append, string_mk_append]
        simp
    · have hunf : splitLinesAux (c :: rest) acc = splitLinesAux rest (c :: acc) := by
        simp [splitLinesAux, hc]
      rw [hunf, ih]
      simp

/-- Round trip: joining the line split of a string gives it back,
mirroring that Python's `"\n".join(s.split("\n"))` is `s`. -/
theorem joinNl_splitLines (s : String) : joinNl (splitLines s) = s := by
  cases s with
  | mk d => simpa using joinNl_splitLinesAux d []

/-- Every chunk the splitting loop emits is marked partial and carries
the function's name. -/
theorem splitLoop_partial_name (fi : FunctionInfo) (mt : Nat) (sig : String) :
    ∀ (rest : List String) (i : Nat) (cur : List String) (cs cnt : Nat),
      ∀ c ∈ splitLoop fi mt sig rest i cur cs cnt,
        c.metadata.partFlag = true ∧ c.metadata.name = fi.name := by
  intro rest
  induction rest with
  | nil =>
    intro i cur cs cnt c hc
    simp only [splitLoop] at hc
    split at hc
    · simp only [List.mem_singleton] at hc
      subst hc
      exact ⟨rfl, rfl⟩
    · simp at hc
  | cons line rest ih =>
    intro i cur cs cnt c hc
    simp only [splitLoop] at hc
    split at hc
    · rcases List.mem_cons.mp hc with h1 | h2
      · subst h1
        exact ⟨rfl, rfl⟩
      · exact ih _ _ _ _ c h2
    · exact ih _ _ _ _ c hc

/-- Once the buffer holds more than one line, the loop emits at least
one chunk. -/
theorem splitLoop_ne_nil (fi : FunctionInfo) (mt : Nat) (sig : String) :
    ∀ (rest : List String) (i : Nat) (cur : List String) (cs cnt : Nat),
      1 < cur.length → splitLoop fi mt sig rest i cur cs cnt ≠ [] := by
  intro rest
  induction rest with
  | nil =>
    intro i cur cs cnt h
    simp only [splitLoop, if_pos h]
    simp
  | cons line rest ih =>
    intro i cur cs cnt h
    simp only [splitLoop]
    split
    · simp
    · apply ih
      simp only [List.length_append, List.length_cons, List.length_nil]
      omega

/-- The splitting loop satisfies the part bookkeeping starting from any
entry value of `chunk_count`. -/
theorem splitLoop_partsFrom (fi : FunctionInfo) (mt : Nat) (sig : String) :
    ∀ (rest : List String) (i : Nat) (cur : List String) (cs cnt : Nat),
      PartsFrom fi cnt (splitLoop fi mt sig rest i cur cs cnt) := by
  intro rest
  induction rest with
  | nil =>
    intro i cur cs cnt
    simp only [splitLoop]
    split
    · exact ⟨rfl, rfl, rfl⟩
    · trivial
  | cons line rest ih =>
    intro i cur cs cnt
    simp only [splitLoop]
    split
    · rename_i hcond
      have hne := splitLoop_ne_nil fi mt sig rest (i + 1)
        [sig, contMarker (cs + cur.length), line] (fi.start_line + i) (cnt + 1)
        (by simp)
      cases htl : splitLoop fi mt sig rest (i + 1)
          [sig, contMarker (cs + cur.length), line] (fi.start_line + i) (cnt + 1) with
      | nil => exact absurd htl hne
      | cons t ts =>
        have htail := ih (i + 1) [sig, contMarker (cs + cur.length), line]
          (fi.start_line + i) (cnt + 1)
        rw [htl] at htail
        exact ⟨rfl, rfl, rfl, htail⟩
    · exact ih (i + 1) (cur ++ [line]) cs cnt

/-- Every chunk the splitting loop emits from a buffer headed by the
signature has a text beginning with the signature. -/
theorem splitLoop_text (fi : FunctionInfo) (mt : Nat) (sig : String) :
    ∀ (rest : List String) (i : Nat) (cur : List String) (cs cnt : Nat),
      ∀ c ∈ splitLoop fi mt sig rest i (sig :: cur) cs cnt,
        ∃ t, c.text = sig ++ t := by
  intro rest
  induction rest with
  | nil =>
    intro i cur cs cnt c hc
    simp only [splitLoop] at hc
    split at hc
    · simp only [List.mem_singleton] at hc
      subst hc
      exact joinNl_cons_exists sig cur
    · simp at hc
  | cons line rest ih =>
    intro i cur cs cnt c hc
    simp only [splitLoop] at hc
    split at hc
    · rcases List.mem_cons.mp hc with h1 | h2
      · subst h1
        exact joinNl_cons_exists sig cur
      · exact ih (i + 1) [contMarker (cs + (sig :: cur).length), line]
          (fi.start_line + i) (cnt + 1) c h2
    · have harr : (sig :: cur) ++ [line] = sig :: (cur ++ [line]) := by simp
      rw [harr] at hc
      exact ih (i + 1) (cur ++ [line]) cs cnt c hc

/-- Every chunk emitted for a function has a text beginning with the
first line of that function's code. -/
theorem chunkForFunction_text (fi : FunctionInfo) (m : Nat) :
    ∀ c ∈ chunkForFunction fi m,
      ∃ t, c.text = (splitLines fi.code).headD "" ++ t := by
  intro c hc
  rw [chunkForFunction] at hc
  split at hc
  · simp only [List.mem_singleton] at hc
    subst hc
    cases hsp : splitLines fi.code with
    | nil => exact absurd hsp (splitLines_ne_nil fi.code)
    | cons h0 r =>
      have hjoin := joinNl_splitLines fi.code
      rw [hsp] at hjoin
      obtain ⟨t, ht⟩ := joinNl_cons_exists h0 r
      refine ⟨t, ?_⟩
      show fi.code = (h0 :: r).headD "" ++ t
      simp only [List.headD_cons]
      rw [← hjoin, ht]
  · simp only [split_large_function] at hc
    exact splitLoop_text fi m _ _ _ _ _ _ c hc

/-- The indexed reading of the part bookkeeping: the chunk at position
`j` carries part number `cnt + j + 1`, the matching id, and
`total_parts` exactly on the last position. -/
theorem partsFrom_get (fi : FunctionInfo) :
    ∀ (out : List Chunk) (cnt : Nat), PartsFrom fi cnt out →
      ∀ (j : Nat) (hj : j < out.length),
        (out.get ⟨j, hj⟩).metadata.part = some (cnt + j + 1) ∧
        (out.get ⟨j, hj⟩).id = "func_" ++ fi.name ++ "_part" ++ toString (cnt + j + 1) ∧
        (out.get ⟨j, hj⟩).metadata.total_parts
            = (if j + 1 = out.length then some (cnt + out.length) else none) := by
  intro out
  induction out with
  | nil => intro cnt _ j hj; simp at hj
  | cons c rest ih =>
    intro cnt hpf j hj
    cases j with
    | zero =>
      cases rest with
      | nil =>
        simp only [PartsFrom] at hpf
        obtain ⟨h1, h2, h3⟩ := hpf
        refine ⟨by simpa using h1, by simpa using h2, ?_⟩
        simp only [List.get, List.length_cons, List.length_nil]
        simpa using h3
      | cons c2 r2 =>
        simp only [PartsFrom] at hpf
        obtain ⟨h1, h2, h3, _⟩ := hpf
        refine ⟨by simpa using h1, by simpa using h2, ?_⟩
        rw [if_neg (by simp only [List.length_cons]; omega)]
        simpa using h3
    | succ j =>
      cases rest with
      | nil => simp at hj
      | cons c2 r2 =>
        simp only [PartsFrom] at hpf
        obtain ⟨_, _, _, htail⟩ := hpf
        have hj2 : j < (c2 :: r2).length := by
          simp only [List.length_cons] at hj ⊢
          omega
        have hih := ih (cnt + 1) htail j hj2
        have hget : (c :: c2 :: r2).get ⟨j + 1, hj⟩ = (c2 :: r2).get ⟨j, hj2⟩ := rfl
        rw [hget]
        have harith : cnt + 1 + j + 1 = cnt + (j + 1) + 1 := by omega
        refine ⟨?_, ?_, ?_⟩
        · rw [hih.1, harith]
        · rw [hih.2.1, harith]
        · have htot := hih.2.2
          by_cases hcase : j + 1 = (c2 :: r2).length
          · rw [if_pos hcase] at htot
            rw [htot, if_pos (by simp only [List.length_cons] at hcase ⊢; omega)]
            exact congrArg some (by simp only [List.length_cons]; omega)
          · rw [if_neg hcase] at htot
            rw [htot, if_neg (by simp only [List.length_cons] at hcase ⊢; omega)]

/-- C1 (amended): for every analyzer state, every positive budget and
every function record of the module, a function whose size estimate
(`len(code) // 4`) is at most the budget yields exactly one chunk with
`is_partial = false`; a function whose estimate exceeds the budget
yields zero or more chunks, every one with `is_partial = true` (the
count can be 0 for a one-line function and 1 for a short one, so "at
least 2" does not hold). -/
theorem chunk_small_single_oversized_all_marked (a : PythonCodeAnalyzer) (m : Nat)
    (hm : 0 < m) (fi : FunctionInfo) (hfi : fi ∈ moduleFunctionInfos a) :
    (fi.code.length / 4 ≤ m →
      ∃ c, chunkForFunction fi m = [c] ∧ c.metadata.partFlag = false) ∧
    (m < fi.code.length / 4 →
      ∀ c ∈ chunkForFunction fi m, c.metadata.partFlag = true) := by
  constructor
  · intro h
    exact ⟨wholeChunk fi, by rw [chunkForFunction, if_pos h], rfl⟩
  · intro h c hc
    rw [chunkForFunction, if_neg (Nat.not_le.mpr h)] at hc
    simp only [split_large_function] at hc
    exact (splitLoop_partial_name fi m _ _ _ _ _ _ c hc).1

/-- Witness for C1 at the one-function module `tinySrc` with budget 10. -/
theorem chunk_small_single_oversized_all_marked_witness :
    0 < 10 ∧ tinyFi ∈ moduleFunctionInfos tinyAnalyzer ∧ tinyFi.code.length / 4 ≤ 10 ∧
      ∃ c, chunkForFunction tinyFi 10 = [c] ∧ c.metadata.partFlag = false :=
  ⟨by decide, by decide, by decide,
   (chunk_small_single_oversized_all_marked tinyAnalyzer 10 (by decide) tinyFi
     (by decide)).1 (by decide)⟩

/-- C1 counterexample: on `oneLineSrc` the single function's estimate
(6) exceeds the budget 1, yet `chunk_by_function` emits no chunk at
all — not at least two — because the splitting loop never flushes a
buffer holding only the signature line. -/
theorem chunk_oversized_single_line_no_chunks :
    moduleFunctionInfos oneLineAnalyzer = [oneLineFi] ∧
    1 < oneLineFi.code.length / 4 ∧
    chunk_by_function oneLineAnalyzer 1 = [] := by decide

/-- C2: when a function's estimate exceeds the budget, the chunks
emitted for it carry `part` values forming the contiguous sequence
1, 2, ..., N in emission order, ids `func_<name>_part<k>` with `k` the
part number, and `total_parts` — equal to N — exactly on the last
chunk. -/
theorem split_parts_contiguous_ids_total (a : PythonCodeAnalyzer) (m : Nat)
    (fi : FunctionInfo) (hfi : fi ∈ moduleFunctionInfos a)
    (h : m < fi.code.length / 4)
    (j : Nat) (hj : j < (chunkForFunction fi m).length) :
    ((chunkForFunction fi m).get ⟨j, hj⟩).metadata.part = some (j + 1) ∧
    ((chunkForFunction fi m).get ⟨j, hj⟩).id
        = "func_" ++ fi.name ++ "_part" ++ toString (j + 1) ∧
    ((chunkForFunction fi m).get ⟨j, hj⟩).metadata.total_parts
        = (if j + 1 = (chunkForFunction fi m).length
           then some ((chunkForFunction fi m).length) else none) := by
  have hpf : PartsFrom fi 0 (chunkForFunction fi m) := by
    rw [chunkForFunction, if_neg (Nat.not_le.mpr h)]
    simp only [split_large_function]
    exact splitLoop_partsFrom fi m _ _ _ _ _ _
  have hres := partsFrom_get fi (chunkForFunction fi m) 0 hpf j hj
  simpa using hres

/-- Witness for C2 at the module `splitSrc` with budget 5 (three parts
are emitted; position 0 carries part number 1). -/
theorem split_parts_contiguous_ids_total_witness :
    splitFi ∈ moduleFunctionInfos splitAnalyzer ∧ 5 < splitFi.code.length / 4 ∧
      ((chunkForFunction splitFi 5).get ⟨0, by decide⟩).metadata.part = some 1 :=
  ⟨by decide, by decide,
   (split_parts_contiguous_ids_total splitAnalyzer 5 splitFi (by decide) (by decide)
     0 (by decide)).1⟩

/-- C3: every chunk returned by `chunk_by_function` — split or not —
belongs to some function record of the module and its text begins with
the exact first line of that function's extracted code. -/
theorem chunk_text_begins_with_signature (a : PythonCodeAnalyzer) (m : Nat) (hm : 0 < m) :
    ∀ c ∈ chunk_by_function a m,
      ∃ fi ∈ moduleFunctionInfos a,
        c ∈ chunkForFunction fi m ∧
        ∃ t, c.text = (splitLines fi.code).headD "" ++ t := by
  intro c hc
  rw [chunk_by_function, List.mem_flatMap] at hc
  obtain ⟨fi, hfi, hcf⟩ := hc
  exact ⟨fi, hfi, hcf, chunkForFunction_text fi m c hcf⟩

/-- Witness for C3 at the module `tinySrc` with budget 10 and its
single emitted chunk. -/
theorem chunk_text_begins_with_signature_witness :
    0 < 10 ∧
      ∃ fi ∈ moduleFunctionInfos tinyAnalyzer,
        wholeChunk tinyFi ∈ chunkForFunction fi 10 ∧
        ∃ t, (wholeChunk tinyFi).text = (splitLines fi.code).headD "" ++ t :=
  ⟨by decide,
   chunk_text_begins_with_signature tinyAnalyzer 10 (by decide)
     (wholeChunk tinyFi) (by decide)⟩

/-- C4: construction fails with the invalid-source error, carrying the
parser diagnostic, exactly when the source fails to parse; on a parse
success it never fails and yields the analyzer state. -/
theorem init_invalid_source_error (code : String)
    (parseFn : String → Except String (List PyStmt)) :
    (∀ e, parseFn code = Except.error e →
        initAnalyzer parseFn code = Except.error ("Invalid Python code: " ++ e)) ∧
    (∀ t, parseFn code = Except.ok t →
        initAnalyzer parseFn code = Except.ok ⟨code, splitLines code, t⟩) := by
  constructor
  · intro e he
    simp only [initAnalyzer, he]
  · intro t ht
    simp only [initAnalyzer, ht]

/-- Witness for C4 at a failing and a succeeding parser. -/
theorem init_invalid_source_error_witness :
    initAnalyzer (fun _ => Except.error "invalid syntax") "def broken("
        = Except.error ("Invalid Python code: " ++ "invalid syntax") ∧
    initAnalyzer (fun _ => Except.ok []) ""
        = Except.ok ⟨"", splitLines "", []⟩ :=
  ⟨(init_invalid_source_error "def broken(" (fun _ => Except.error "invalid syntax")).1
      "invalid syntax" rfl,
   (init_invalid_source_error "" (fun _ => Except.ok [])).2 [] rfl⟩

/-- C8 counterexample: a module whose only import statement carries
eleven aliases renders eleven import entries, so the truncation note
appears even though the source holds a single import statement — the
note is governed by rendered entries, not statements. -/
theorem outline_note_single_statement_counterexample :
    countImportStmts manyAliasImport = 1 ∧
    (extract_imports manyAliasImport).length = 11 ∧
    "# ... and 1 more imports" ∈ outlineLines manyAliasImport := by decide

/-- C8 (amended): the outline shows at most ten rendered import
entries, namely the first ten in walk order; the truncation note, which
states how many more entries exist, is present exactly when more than
ten rendered entries exist (a plain import renders one entry per alias,
a from-import one entry per statement); with at most ten entries all of
them are shown and no note is present. -/
theorem outline_import_cap_and_note (m : List PyStmt) :
    ∃ shown note,
      outlineLines m =
        (if (extract_imports m).isEmpty then [] else
          "# Imports" :: shown ++ note ++ [""]) ++
          "# Functions" :: funcSignatureLines m ∧
      shown = (extract_imports m).take 10 ∧
      shown.length ≤ 10 ∧
      note = (if 10 < (extract_imports m).length then
        ["# ... and " ++ toString ((extract_imports m).length - 10) ++ " more imports"]
       else []) ∧
      ((extract_imports m).length ≤ 10 → shown = extract_imports m ∧ note = []) := by
  refine ⟨(extract_imports m).take 10,
    (if 10 < (extract_imports m).length then
      ["# ... and " ++ toString ((extract_imports m).length - 10) ++ " more imports"]
     else []), rfl, rfl, ?_, rfl, ?_⟩
  · simp only [List.length_take]
    omega
  · intro hle
    constructor
    · exact List.take_of_length_le hle
    · rw [if_neg (by omega)]

/-- Keys absent from every entry are not found by dict lookup. -/
theorem dictLookup_eq_none {α : Type} (l : List (String × α)) (k : String)
    (h : ∀ p ∈ l, p.1 ≠ k) : dictLookup l k = none := by
  have hfind : (l.reverse.find? fun p => p.1 == k) = none := by
    rw [List.find?_eq_none]
    intro p hp
    have hpk := h p (List.mem_reverse.mp hp)
    simpa using hpk
  rw [dictLookup, hfind]
  rfl

/-- Every chunk emitted for a function carries that function's name. -/
theorem chunkForFunction_name (fi : FunctionInfo) (m : Nat) :
    ∀ c ∈ chunkForFunction fi m, c.metadata.name = fi.name := by
  intro c hc
  rw [chunkForFunction] at hc
  split at hc
  · simp only [List.mem_singleton] at hc
    subst hc
    rfl
  · simp only [split_large_function] at hc
    exact (splitLoop_partial_name fi m _ _ _ _ _ _ c hc).2

/-- C9: async definitions are invisible to the core — when no plain
(non-async) definition bears a name, that name is never a key of an
extraction result however requested, never a key of the call graph,
never the function name of any emitted chunk, and every outline
signature line comes from a plain definition with a different name. -/
theorem async_defs_invisible (a : PythonCodeAnalyzer) (n : String) (m : Nat)
    (h : ∀ d ∈ plainDefs a.tree, d.name ≠ n) :
    (∀ names, dictLookup (extract_functions a names) n = none) ∧
    (∀ p ∈ build_call_graph a.tree, p.1 ≠ n) ∧
    (∀ c ∈ chunk_by_function a m, c.metadata.name ≠ n) ∧
    (∀ l ∈ funcSignatureLines a.tree,
        ∃ d, d ∈ plainDefs a.tree ∧ d.name ≠ n ∧ l = signatureLine d) := by
  refine ⟨?_, ?_, ?_, ?_⟩
  · intro names
    apply dictLookup_eq_none
    intro p hp
    rw [extract_functions, List.mem_filterMap] at hp
    obtain ⟨d, hd, hsome⟩ := hp
    by_cases hmem : d.name ∈ names
    · rw [if_pos hmem] at hsome
      injection hsome with hpe
      rw [← hpe]
      exact h d hd
    · rw [if_neg hmem] at hsome
      exact absurd hsome (by simp)
  · intro p hp
    rw [build_call_graph, List.mem_map] at hp
    obtain ⟨d, hd, hpe⟩ := hp
    rw [← hpe]
    exact h d hd
  · intro c hc
    rw [chunk_by_function, List.mem_flatMap] at hc
    obtain ⟨fi, hfi, hcf⟩ := hc
    rw [moduleFunctionInfos, List.mem_map] at hfi
    obtain ⟨d, hd, hpd⟩ := hfi
    rw [chunkForFunction_name fi m c hcf, ← hpd]
    exact h d hd
  · intro l hl
    rw [funcSignatureLines, List.mem_map] at hl
    obtain ⟨d, hd, hld⟩ := hl
    exact ⟨d, hd, h d hd, hld.symm⟩

/-- Witness for C9 at a module whose async definition `fetch` is the
only bearer of that name. -/
theorem async_defs_invisible_witness :
    (∀ d ∈ plainDefs asyncAnalyzer.tree, d.name ≠ "fetch") ∧
    dictLookup (extract_functions asyncAnalyzer ["fetch"]) "fetch" = none :=
  ⟨by decide, (async_defs_invisible asyncAnalyzer "fetch" 10 (by decide)).1 ["fetch"]⟩

/-- A statement of a list contributes its call names to the list's. -/
theorem stmtCallNames_sub_of_mem :
    ∀ (l : List PyStmt) (s : PyStmt), s ∈ l →
      ∀ x ∈ stmtCallNames s, x ∈ stmtsCallNames l := by
  intro l
  induction l with
  | nil => intro s hs; simp at hs
  | cons a rest ih =>
    intro s hs x hx
    rcases List.mem_cons.mp hs with h1 | h2
    · subst h1
      simp only [stmtsCallNames, List.mem_append]
      exact Or.inl hx
    · simp only [stmtsCallNames, List.mem_append]
      exact Or.inr (ih s h2 x hx)

/-- Call names distribute over list append. -/
theorem stmtsCallNames_append (l r : List PyStmt) :
    stmtsCallNames (l ++ r) = stmtsCallNames l ++ stmtsCallNames r := by
  induction l with
  | nil => simp [stmtsCallNames]
  | cons s t ih => simp [stmtsCallNames, ih]

/-- A statement's children contribute only call names the statement
itself already records. -/
theorem stmtChildren_calls_sub (s : PyStmt) :
    ∀ x ∈ stmtsCallNames (stmtChildren s), x ∈ stmtCallNames s := by
  cases s with
  | functionDef n a body l e =>
    intro x hx
    simpa [stmtChildren, stmtCallNames] using hx
  | asyncFunctionDef n a body l e =>
    intro x hx
    simpa [stmtChildren, stmtCallNames] using hx
  | importStmt names =>
    intro x hx
    simp [stmtChildren, stmtsCallNames] at hx
  | importFrom mo names =>
    intro x hx
    simp [stmtChildren, stmtsCallNames] at hx
  | exprStmt e =>
    intro x hx
    simp [stmtChildren, stmtsCallNames] at hx
  | ret e =>
    intro x hx
    simp [stmtChildren, stmtsCallNames] at hx
  | passStmt =>
    intro x hx
    simp [stmtChildren, stmtsCallNames] at hx

/-- The concatenated children of a level only contribute call names the
level already records. -/
theorem stmtsCallNames_flat_sub :
    ∀ (l : List PyStmt) (x : String),
      x ∈ stmtsCallNames (l.flatMap stmtChildren) → x ∈ stmtsCallNames l := by
  intro l
  induction l with
  | nil => intro x hx; simpa using hx
  | cons s t ih =>
    intro x hx
    rw [List.flatMap_cons, stmtsCallNames_append] at hx
    rcases List.mem_append.mp hx with h1 | h2
    · simp only [stmtsCallNames, List.mem_append]
      exact Or.inl (stmtChildren_calls_sub s x h1)
    · simp only [stmtsCallNames, List.mem_append]
      exact Or.inr (ih x h2)

/-- Any statement reached by the walk only records call names the root
list already records. -/
theorem walkFuel_calls :
    ∀ (fuel : Nat) (l : List PyStmt), ∀ s ∈ walkFuel fuel l,
      ∀ x ∈ stmtCallNames s, x ∈ stmtsCallNames l := by
  intro fuel
  induction fuel with
  | zero => intro l s hs; simp [walkFuel] at hs
  | succ n ih =>
    intro l s hs x hx
    cases l with
    | nil => simp [walkFuel] at hs
    | cons a rest =>
      simp only [walkFuel] at hs
      rcases List.mem_append.mp hs with h1 | h2
      · exact stmtCallNames_sub_of_mem (a :: rest) s h1 x hx
      · exact stmtsCallNames_flat_sub (a :: rest) x
          (ih ((a :: rest).flatMap stmtChildren) s h2 x hx)

/-- C10: calls are attributed to every enclosing function — when a
plain definition `g` occurs anywhere inside the body of a plain
definition `f` of the module, every call name recorded for `g` is also
in `f`'s callee set, because the builder walks the full subtree of each
definition. -/
theorem nested_calls_attributed_to_enclosing (m : List PyStmt) (f g : DefNode)
    (hf : f ∈ plainDefs m) (hg : g ∈ plainDefs f.body) :
    ∀ x ∈ callsOfBody g.body, x ∈ callsOfBody f.body := by
  intro x hx
  rw [callsOfBody, List.mem_toFinset] at hx
  rw [callsOfBody, List.mem_toFinset]
  rw [plainDefs, List.mem_filterMap] at hg
  obtain ⟨s, hs, hmatch⟩ := hg
  cases s with
  | functionDef n a b l e =>
    injection hmatch with hmk
    subst hmk
    exact walkFuel_calls (stmtsWeight f.body) f.body _ hs x hx
  | asyncFunctionDef n a b l e => simp at hmatch
  | importStmt names => simp at hmatch
  | importFrom mo names => simp at hmatch
  | exprStmt e => simp at hmatch
  | ret e => simp at hmatch
  | passStmt => simp at hmatch

/-- Witness for C10 at the module where `outer` lexically contains
`inner`. -/
theorem nested_calls_attributed_to_enclosing_witness :
    outerNode ∈ plainDefs nestedTree ∧ innerNode ∈ plainDefs outerNode.body ∧
      ∀ x ∈ callsOfBody innerNode.body, x ∈ callsOfBody outerNode.body :=
  ⟨List.Mem.head _, List.Mem.head _,
   nested_calls_attributed_to_enclosing nestedTree outerNode innerNode
     (List.Mem.head _) (List.Mem.head _)⟩
